import Mathlib

/-!
# Verification of the `safe_vault` chunk store

A shallow embedding of `src/chunk_store/chunk_store.rs`: a quota-bounded
content store persisting byte blobs in a flat temporary directory.

Modelling choices:

* Identifiers (`::routing::NameType`, an external collaborator crate) are
  abstract: `Name := Nat`.  The collaborator contract (spec §6) is a
  reversible printable (hex) encoding of identifiers into file names, so a
  file-system name is either the encoding of a unique identifier
  (`FsName.valid n`) or a name that fails to decode, split as in the code
  into the not-valid-UTF-8 case and the not-valid-hex case.
* The file system (std::fs via the tempdir) is a directory: a list of
  entries, each with a name, a regular-file flag and byte contents
  (`List Nat`).  `metadata.len()` of a chunk file is its content length.
* `usize` arithmetic appears at two levels.  The operations `put`,
  `delete`, `putWith`, `deleteWith` idealise it as unbounded `Nat`: the
  spec-level semantics, adequate whenever no sum reaches `2 ^ w`.  The
  operations `putW`, `deleteW`, `putWithW`, `deleteWithW` (and the check
  `has_disk_spaceW`) keep the fixed-width semantics exact, with additions
  and subtractions taken modulo `2 ^ w`; they are the machine-level
  refinement, and the development proves both where the two levels agree
  (all sums below `2 ^ w`) and concrete reachable inputs where they
  diverge (the quota check wraps and the quota properties fail).
* Pure operations (`put`, `delete`, `get`, ...) model runs in which the
  storage medium does not fail and a `write` call writes the whole
  buffer.  Fallible runs are modelled by `putWith` / `deleteWith`, which
  take an explicit script saying which I/O step fails; on a failed write
  the partially written file's contents are abstracted as empty (only
  the accounting and the surfaced error matter to the properties here).
-/

/-- Identifiers (`::routing::NameType`): abstract, with decidable equality. -/
abbrev Name := Nat

/-- A file-system entry name: either the printable (hex) encoding of an
identifier, or a name that the code skips because it is not valid UTF-8 or
not valid hex.  The encoding is reversible (spec §6), which this type
captures by construction. -/
inductive FsName where
  | valid (n : Name)
  | invalidUtf8 (tag : Nat)
  | invalidHex (tag : Nat)
deriving DecidableEq, Repr

/-- `path.file_name().and_then(to_str)` followed by `NameType::from_hex`:
recover the identifier from a file name, when possible. -/
def FsName.decode : FsName → Option Name
  | .valid n => some n
  | .invalidUtf8 _ => none
  | .invalidHex _ => none

/-- One directory entry: name, whether it is a regular file, and contents. -/
structure Entry where
  name : FsName
  isFile : Bool
  content : List Nat
deriving DecidableEq, Repr

/-- The predicate `entry.file_name().as_os_str() == OsStr::new(&hex_name)`. -/
def entryNamed (x : FsName) (e : Entry) : Bool := decide (e.name = x)

/-- `ChunkStore` (chunk_store.rs:54-58): the tempdir's directory contents
plus the two accounting fields. -/
structure ChunkStore where
  dir : List Entry
  max_disk_usage : Nat
  current_disk_usage : Nat
deriving DecidableEq, Repr

/-- `ChunkStore::new` (chunk_store.rs:62-69): fresh empty tempdir, zero usage. -/
def ChunkStore.new (max_disk_usage : Nat) : ChunkStore :=
  { dir := [], max_disk_usage := max_disk_usage, current_disk_usage := 0 }

/-- `ChunkStore::dir_entry` (chunk_store.rs:171-180): scan the directory for
the entry whose name equals the identifier's hex encoding. -/
def ChunkStore.dir_entry (cs : ChunkStore) (n : Name) : Option Entry :=
  cs.dir.find? (entryNamed (FsName.valid n))

/-- `ChunkStore::has_disk_space` (chunk_store.rs:159-161), with the `usize`
addition idealised as unbounded (`has_disk_spaceW` is the exact fixed-width
version, and `putW` the put built on it; the two agree exactly when
`current_disk_usage + required_space < 2 ^ w`). -/
def ChunkStore.has_disk_space (cs : ChunkStore) (required_space : Nat) : Bool :=
  decide (cs.current_disk_usage + required_space ≤ cs.max_disk_usage)

/-- `ChunkStore::delete` (chunk_store.rs:110-132), failure-free run: if no
entry carries the identifier's name, succeed without effect; otherwise read
the entry's size (`metadata.len()`), remove the entry, and subtract the size
from `current_disk_usage`. -/
def ChunkStore.delete (cs : ChunkStore) (n : Name) : ChunkStore :=
  match cs.dir_entry n with
  | none => cs
  | some e =>
    { cs with
      dir := cs.dir.eraseP (entryNamed (FsName.valid n)),
      current_disk_usage := cs.current_disk_usage - e.content.length }

/-- `PutError` (chunk_store.rs:18-25). -/
inductive PutError where
  | StorageLimitHit
  | IoError
deriving DecidableEq, Repr

/-- `ChunkStore::put` (chunk_store.rs:71-108), failure-free run: check
quota against the payload length, delete any preexisting entry of that
name, create the file, write the whole payload, sync, and add the number
of bytes written (here the full length) to `current_disk_usage`. -/
def ChunkStore.put (cs : ChunkStore) (n : Name) (v : List Nat) :
    Except PutError ChunkStore :=
  if cs.has_disk_space v.length then
    .ok { dir := (cs.delete n).dir ++ [Entry.mk (FsName.valid n) true v],
          max_disk_usage := (cs.delete n).max_disk_usage,
          current_disk_usage := (cs.delete n).current_disk_usage + v.length }
  else
    .error .StorageLimitHit

/-- `ChunkStore::get` (chunk_store.rs:134-145), failure-free run: look the
entry up and read its whole contents; `none` when absent. -/
def ChunkStore.get (cs : ChunkStore) (n : Name) : Option (List Nat) :=
  (cs.dir_entry n).map Entry.content

/-- `ChunkStore::has_chunk` (chunk_store.rs:155-157). -/
def ChunkStore.has_chunk (cs : ChunkStore) (n : Name) : Bool :=
  (cs.dir_entry n).isSome

/-- Sum of the persisted sizes of all entries in the storage area. -/
def usedOf (dir : List Entry) : Nat :=
  (dir.map (fun e => e.content.length)).sum

/-! ## Fixed-width (`usize`) arithmetic for `has_disk_space` -/

/-- `usize` addition at word width `w`: wraps modulo `2 ^ w`. -/
def usizeAdd (w a b : Nat) : Nat := (a + b) % 2 ^ w

/-- `ChunkStore::has_disk_space` (chunk_store.rs:159-161) with the `usize`
addition modelled exactly: `(used + n) % 2 ^ w <= max`.  This is also the
quota check `put` performs at chunk_store.rs:74. -/
def has_disk_spaceW (w used maxd n : Nat) : Bool :=
  decide (usizeAdd w used n ≤ maxd)

/-- `usize` subtraction at word width `w`: wraps modulo `2 ^ w`. -/
def usizeSub (w a b : Nat) : Nat := (a + (2 ^ w - b % 2 ^ w)) % 2 ^ w

/-- `ChunkStore::delete` (chunk_store.rs:110-132) with the `usize`
arithmetic kept exact: the usage decrement
`current_disk_usage -= metadata.len() as usize` wraps modulo `2 ^ w`. -/
def ChunkStore.deleteW (w : Nat) (cs : ChunkStore) (n : Name) : ChunkStore :=
  match cs.dir_entry n with
  | none => cs
  | some e =>
    { cs with
      dir := cs.dir.eraseP (entryNamed (FsName.valid n)),
      current_disk_usage := usizeSub w cs.current_disk_usage e.content.length }

/-- `ChunkStore::put` (chunk_store.rs:71-108) with the `usize` arithmetic
kept exact, failure-free run: the quota check is the wrapped
`has_disk_spaceW` and the usage increment wraps modulo `2 ^ w`. -/
def ChunkStore.putW (w : Nat) (cs : ChunkStore) (n : Name) (v : List Nat) :
    Except PutError ChunkStore :=
  if has_disk_spaceW w cs.current_disk_usage cs.max_disk_usage v.length then
    .ok { dir := (cs.deleteW w n).dir ++ [Entry.mk (FsName.valid n) true v],
          max_disk_usage := (cs.deleteW w n).max_disk_usage,
          current_disk_usage :=
            usizeAdd w (cs.deleteW w n).current_disk_usage v.length }
  else
    .error .StorageLimitHit

/-! ## Fallible runs

`deleteWith` and `putWith` run `delete` and `put` against a script saying
which underlying I/O step fails (each flag applies only if its step is
reached).  They return the outcome together with the post-state, which is
what the error-handling properties are about. -/

/-- Which step of `ChunkStore::delete` fails, if any. -/
inductive DeleteEff where
  | ok
  | listErr
  | metadataErr
  | removeErr
deriving DecidableEq, Repr

/-- `ChunkStore::delete` (chunk_store.rs:110-132) with fallible I/O.
Reading the directory can fail; with an entry present, the metadata read or
the removal can fail; each failure returns before `current_disk_usage` is
touched. -/
def ChunkStore.deleteWith (cs : ChunkStore) (n : Name) (eff : DeleteEff) :
    Bool × ChunkStore :=
  match eff with
  | .listErr => (false, cs)
  | .ok => (true, cs.delete n)
  | .metadataErr =>
    match cs.dir_entry n with
    | none => (true, cs)
    | some _ => (false, cs)
  | .removeErr =>
    match cs.dir_entry n with
    | none => (true, cs)
    | some _ => (false, cs)

/-- Which steps of `ChunkStore::put` fail, if reached: the pre-delete, the
file creation, the write-and-sync, and the cleanup removal after a failed
write. -/
structure PutEff where
  del : DeleteEff
  createOk : Bool
  writeOk : Bool
  cleanupOk : Bool
deriving DecidableEq, Repr

/-- Outcome of a fallible `put`: which error was surfaced, if any. -/
inductive PutRes where
  | success
  | limitHit
  | preDeleteErr
  | createErr
  | writeErr
deriving DecidableEq, Repr

/-- `ChunkStore::put` (chunk_store.rs:71-108) with fallible I/O.  The quota
check runs first (before any I/O); then the pre-delete; then file creation;
then write-and-sync.  On a write failure the partially written file is
removed (best effort: the removal's own failure is only logged) and the
surfaced error is the write failure; the partial contents are abstracted as
empty. -/
def ChunkStore.putWith (cs : ChunkStore) (n : Name) (v : List Nat)
    (eff : PutEff) : PutRes × ChunkStore :=
  if cs.has_disk_space v.length then
    match cs.deleteWith n eff.del with
    | (false, cs1) => (.preDeleteErr, cs1)
    | (true, cs1) =>
      if eff.createOk then
        if eff.writeOk then
          (.success,
            { cs1 with
              dir := cs1.dir ++ [Entry.mk (FsName.valid n) true v],
              current_disk_usage := cs1.current_disk_usage + v.length })
        else
          if eff.cleanupOk then
            (.writeErr, cs1)
          else
            (.writeErr, { cs1 with dir := cs1.dir ++ [Entry.mk (FsName.valid n) true []] })
      else
        (.createErr, cs1)
  else
    (.limitHit, cs)

/-- `ChunkStore::delete` (chunk_store.rs:110-132) with fallible I/O and the
`usize` arithmetic kept exact (`deleteWith` with the wrapped decrement). -/
def ChunkStore.deleteWithW (w : Nat) (cs : ChunkStore) (n : Name)
    (eff : DeleteEff) : Bool × ChunkStore :=
  match eff with
  | .listErr => (false, cs)
  | .ok => (true, cs.deleteW w n)
  | .metadataErr =>
    match cs.dir_entry n with
    | none => (true, cs)
    | some _ => (false, cs)
  | .removeErr =>
    match cs.dir_entry n with
    | none => (true, cs)
    | some _ => (false, cs)

/-- `ChunkStore::put` (chunk_store.rs:71-108) with fallible I/O and the
`usize` arithmetic kept exact (`putWith` with the wrapped quota check and
wrapped usage increment). -/
def ChunkStore.putWithW (w : Nat) (cs : ChunkStore) (n : Name) (v : List Nat)
    (eff : PutEff) : PutRes × ChunkStore :=
  if has_disk_spaceW w cs.current_disk_usage cs.max_disk_usage v.length then
    match cs.deleteWithW w n eff.del with
    | (false, cs1) => (.preDeleteErr, cs1)
    | (true, cs1) =>
      if eff.createOk then
        if eff.writeOk then
          (.success,
            { cs1 with
              dir := cs1.dir ++ [Entry.mk (FsName.valid n) true v],
              current_disk_usage := usizeAdd w cs1.current_disk_usage v.length })
        else
          if eff.cleanupOk then
            (.writeErr, cs1)
          else
            (.writeErr, { cs1 with dir := cs1.dir ++ [Entry.mk (FsName.valid n) true []] })
      else
        (.createErr, cs1)
  else
    (.limitHit, cs)

/-! ## Enumeration (`Chunks` iterator and `ChunkReader`) -/

/-- `ChunkReader` (chunk_store.rs:183-185): holds only the chunk's location. -/
structure ChunkReader where
  path : FsName
deriving DecidableEq, Repr

/-- `ChunkReader::read` (chunk_store.rs:188-194): open the file at the held
path and read its whole contents; `none` if the path no longer resolves. -/
def ChunkReader.read (rd : ChunkReader) (dir : List Entry) : Option (List Nat) :=
  (dir.find? (entryNamed rd.path)).map Entry.content

/-- One raw item of the underlying `ReadDir` stream: an I/O error, or an
entry for which `file_type()` either succeeds or fails. -/
inductive RawItem where
  | err
  | entry (e : Entry) (ftypeOk : Bool)
deriving DecidableEq, Repr

/-- One produced item of the `Chunks` iterator. -/
inductive ChunkItem where
  | err
  | chunk (n : Name) (rd : ChunkReader)
deriving DecidableEq, Repr

/-- The full unfolding of `Chunks::next` (chunk_store.rs:204-233) over a raw
directory stream: a raw error yields an error item (and the loop state keeps
the rest of the stream for subsequent calls); a failing `file_type()` yields
an error item likewise; non-files are skipped; names that fail to decode are
skipped; otherwise the decoded identifier is yielded with a reader holding
the entry's path. -/
def chunksList : List RawItem → List ChunkItem
  | [] => []
  | .err :: rest => .err :: chunksList rest
  | .entry e ftypeOk :: rest =>
    if ftypeOk then
      if e.isFile then
        match FsName.decode e.name with
        | some n => .chunk n ⟨e.name⟩ :: chunksList rest
        | none => chunksList rest
      else
        chunksList rest
    else
      .err :: chunksList rest

/-- The item a single raw entry contributes in a failure-free enumeration. -/
def entryItem (e : Entry) : Option ChunkItem :=
  if e.isFile then (FsName.decode e.name).map (fun n => .chunk n ⟨e.name⟩)
  else none

/-- `ChunkStore::chunks` (chunk_store.rs:164-169) followed by a failure-free
exhaustion of the iterator: every raw entry is delivered and every
`file_type()` call succeeds. -/
def ChunkStore.enumerate (cs : ChunkStore) : List ChunkItem :=
  chunksList (cs.dir.map (fun e => .entry e true))

/-- The identifier an enumeration item carries, if it is not an error. -/
def itemKey : ChunkItem → Option Name
  | .err => none
  | .chunk n _ => some n

/-! ## Basic lemmas about the directory operations -/

theorem usedOf_nil : usedOf [] = 0 := rfl

theorem usedOf_cons (e : Entry) (l : List Entry) :
    usedOf (e :: l) = e.content.length + usedOf l := by
  simp [usedOf]

theorem usedOf_append (l1 l2 : List Entry) :
    usedOf (l1 ++ l2) = usedOf l1 + usedOf l2 := by
  simp [usedOf]

theorem usedOf_eraseP {dir : List Entry} {p : Entry → Bool} {e : Entry}
    (h : dir.find? p = some e) :
    usedOf (dir.eraseP p) + e.content.length = usedOf dir := by
  induction dir with
  | nil => simp at h
  | cons a l ih =>
    by_cases hp : p a
    · rw [List.find?_cons_of_pos _ hp] at h
      injection h with h
      subst h
      rw [List.eraseP_cons_of_pos hp, usedOf_cons]
      omega
    · rw [List.find?_cons_of_neg _ hp] at h
      rw [List.eraseP_cons_of_neg (by simpa using hp), usedOf_cons, usedOf_cons]
      have := ih h
      omega

theorem not_named_of_eraseP {dir : List Entry} {x : FsName}
    (hnd : (dir.map Entry.name).Nodup) :
    ∀ e ∈ dir.eraseP (entryNamed x), e.name ≠ x := by
  induction dir with
  | nil => simp
  | cons a l ih =>
    rw [List.map_cons, List.nodup_cons] at hnd
    by_cases hp : entryNamed x a
    · rw [List.eraseP_cons_of_pos hp]
      intro e he hex
      have hax : a.name = x := by simpa [entryNamed] using hp
      have hmem : e.name ∈ l.map Entry.name := List.mem_map_of_mem Entry.name he
      rw [hex, ← hax] at hmem
      exact hnd.1 hmem
    · rw [List.eraseP_cons_of_neg (by simpa using hp)]
      intro e he
      rcases List.mem_cons.1 he with rfl | he
      · simpa [entryNamed] using hp
      · exact ih hnd.2 e he

theorem delete_max (cs : ChunkStore) (n : Name) :
    (cs.delete n).max_disk_usage = cs.max_disk_usage := by
  unfold ChunkStore.delete
  cases cs.dir_entry n <;> rfl

theorem delete_usage_le (cs : ChunkStore) (n : Name) :
    (cs.delete n).current_disk_usage ≤ cs.current_disk_usage := by
  unfold ChunkStore.delete
  cases cs.dir_entry n with
  | none => exact Nat.le_refl _
  | some e => exact Nat.sub_le _ _

theorem delete_of_none {cs : ChunkStore} {n : Name}
    (h : cs.dir_entry n = none) : cs.delete n = cs := by
  unfold ChunkStore.delete
  rw [h]

theorem delete_of_some {cs : ChunkStore} {n : Name} {e : Entry}
    (h : cs.dir_entry n = some e) :
    cs.delete n =
      { cs with
        dir := cs.dir.eraseP (entryNamed (FsName.valid n)),
        current_disk_usage := cs.current_disk_usage - e.content.length } := by
  unfold ChunkStore.delete
  rw [h]

theorem delete_not_named {cs : ChunkStore} {n : Name}
    (hnd : (cs.dir.map Entry.name).Nodup) :
    ∀ e ∈ (cs.delete n).dir, e.name ≠ FsName.valid n := by
  cases h : cs.dir_entry n with
  | none =>
    rw [delete_of_none h]
    intro e he
    have := List.find?_eq_none.1 h e he
    simpa [entryNamed] using this
  | some e0 =>
    rw [delete_of_some h]
    exact not_named_of_eraseP hnd

theorem put_ok_iff {cs cs' : ChunkStore} {n : Name} {v : List Nat} :
    cs.put n v = .ok cs' ↔
      (cs.current_disk_usage + v.length ≤ cs.max_disk_usage ∧
       cs' = { dir := (cs.delete n).dir ++ [Entry.mk (FsName.valid n) true v],
               max_disk_usage := (cs.delete n).max_disk_usage,
               current_disk_usage :=
                 (cs.delete n).current_disk_usage + v.length }) := by
  unfold ChunkStore.put
  by_cases h : cs.current_disk_usage + v.length ≤ cs.max_disk_usage
  · have hb : cs.has_disk_space v.length = true := decide_eq_true h
    rw [if_pos hb]
    constructor
    · intro he
      refine ⟨h, ?_⟩
      cases he
      rfl
    · rintro ⟨-, rfl⟩
      rfl
  · have hb : cs.has_disk_space v.length = false := decide_eq_false h
    rw [if_neg (by simp [hb])]
    constructor
    · intro he
      cases he
    · rintro ⟨hc, -⟩
      exact absurd hc h

theorem put_error_iff {cs : ChunkStore} {n : Name} {v : List Nat} :
    cs.put n v = .error .StorageLimitHit ↔
      ¬ (cs.current_disk_usage + v.length ≤ cs.max_disk_usage) := by
  unfold ChunkStore.put
  by_cases h : cs.current_disk_usage + v.length ≤ cs.max_disk_usage
  · simp [ChunkStore.has_disk_space, h]
  · simp [ChunkStore.has_disk_space, h]

theorem deleteWith_true {cs cs1 : ChunkStore} {n : Name} {eff : DeleteEff}
    (h : cs.deleteWith n eff = (true, cs1)) : cs1 = cs.delete n := by
  unfold ChunkStore.deleteWith at h
  cases eff with
  | ok => exact (Prod.mk.injEq _ _ _ _ ▸ h).2.symm
  | listErr => cases h
  | metadataErr =>
    cases he : cs.dir_entry n with
    | none =>
      rw [he] at h
      have := (Prod.mk.injEq _ _ _ _ ▸ h).2
      rw [← this, delete_of_none he]
    | some e => rw [he] at h; cases h
  | removeErr =>
    cases he : cs.dir_entry n with
    | none =>
      rw [he] at h
      have := (Prod.mk.injEq _ _ _ _ ▸ h).2
      rw [← this, delete_of_none he]
    | some e => rw [he] at h; cases h

theorem deleteWith_false {cs cs1 : ChunkStore} {n : Name} {eff : DeleteEff}
    (h : cs.deleteWith n eff = (false, cs1)) : cs1 = cs := by
  unfold ChunkStore.deleteWith at h
  cases eff with
  | ok => cases h
  | listErr => exact (Prod.mk.injEq _ _ _ _ ▸ h).2.symm
  | metadataErr =>
    cases he : cs.dir_entry n with
    | none => rw [he] at h; cases h
    | some e => rw [he] at h; exact (Prod.mk.injEq _ _ _ _ ▸ h).2.symm
  | removeErr =>
    cases he : cs.dir_entry n with
    | none => rw [he] at h; cases h
    | some e => rw [he] at h; exact (Prod.mk.injEq _ _ _ _ ▸ h).2.symm

theorem put_putWith {cs cs' : ChunkStore} {n : Name} {v : List Nat}
    (h : cs.put n v = .ok cs') :
    cs.putWith n v ⟨.ok, true, true, true⟩ = (.success, cs') := by
  rcases put_ok_iff.1 h with ⟨hq, rfl⟩
  unfold ChunkStore.putWith ChunkStore.deleteWith
  simp [ChunkStore.has_disk_space, hq]

/-! ## Reachability and the store invariant -/

/-- States reachable by sequences of `put` / `delete` calls (including
failing ones) from a freshly constructed store. -/
inductive ReachableEff : ChunkStore → Prop where
  | new (m : Nat) : ReachableEff (ChunkStore.new m)
  | putStep {cs : ChunkStore} (n : Name) (v : List Nat) (eff : PutEff) :
      ReachableEff cs → ReachableEff (cs.putWith n v eff).2
  | deleteStep {cs : ChunkStore} (n : Name) (eff : DeleteEff) :
      ReachableEff cs → ReachableEff (cs.deleteWith n eff).2

/-- States reachable by sequences of successful, failure-free `put` /
`delete` calls from a freshly constructed store. -/
inductive Reachable : ChunkStore → Prop where
  | new (m : Nat) : Reachable (ChunkStore.new m)
  | putOk {cs cs' : ChunkStore} (n : Name) (v : List Nat) :
      Reachable cs → cs.put n v = .ok cs' → Reachable cs'
  | del {cs : ChunkStore} (n : Name) :
      Reachable cs → Reachable (cs.delete n)

/-- States reachable by sequences of successful, failure-free `putW` /
`deleteW` calls under the exact `usize` semantics at word width `w` (the
capacity, a `usize` value, is below `2 ^ w`). -/
inductive ReachableW (w : Nat) : ChunkStore → Prop where
  | new (m : Nat) (hm : m < 2 ^ w) : ReachableW w (ChunkStore.new m)
  | putOk {cs cs' : ChunkStore} (n : Name) (v : List Nat) :
      ReachableW w cs → cs.putW w n v = .ok cs' → ReachableW w cs'
  | del {cs : ChunkStore} (n : Name) :
      ReachableW w cs → ReachableW w (cs.deleteW w n)

/-- States reachable under the exact `usize` semantics by sequences of put
and delete calls (including failing ones) along histories in which every
put's projected usage `used + len` fits in the machine word. -/
inductive ReachableNW (w : Nat) : ChunkStore → Prop where
  | new (m : Nat) (hm : m < 2 ^ w) : ReachableNW w (ChunkStore.new m)
  | putStep {cs : ChunkStore} (n : Name) (v : List Nat) (eff : PutEff)
      (h : cs.current_disk_usage + v.length < 2 ^ w) :
      ReachableNW w cs → ReachableNW w (cs.putWithW w n v eff).2
  | deleteStep {cs : ChunkStore} (n : Name) (eff : DeleteEff) :
      ReachableNW w cs → ReachableNW w (cs.deleteWithW w n eff).2

theorem Reachable.toEff {cs : ChunkStore} (h : Reachable cs) : ReachableEff cs := by
  induction h with
  | new m => exact ReachableEff.new m
  | putOk n v _ hput ih =>
    have := ReachableEff.putStep n v ⟨.ok, true, true, true⟩ ih
    rwa [put_putWith hput] at this
  | del n _ ih =>
    exact ReachableEff.deleteStep n .ok ih

/-- The store invariant: the accounting matches the directory contents, the
quota holds, names are unique (as in a real directory), and every entry is
a regular file carrying an identifier's encoding. -/
structure StoreInv (cs : ChunkStore) : Prop where
  account : cs.current_disk_usage = usedOf cs.dir
  quota : cs.current_disk_usage ≤ cs.max_disk_usage
  nodup : (cs.dir.map Entry.name).Nodup
  entries : ∀ e ∈ cs.dir, e.isFile = true ∧ ∃ k, e.name = FsName.valid k

theorem storeInv_new (m : Nat) : StoreInv (ChunkStore.new m) := by
  refine ⟨rfl, Nat.zero_le m, List.nodup_nil, ?_⟩
  intro e he
  cases he

theorem storeInv_delete {cs : ChunkStore} (h : StoreInv cs) (n : Name) :
    StoreInv (cs.delete n) := by
  cases he : cs.dir_entry n with
  | none =>
    rw [delete_of_none he]
    exact h
  | some e =>
    rw [delete_of_some he]
    have hfind : cs.dir.find? (entryNamed (FsName.valid n)) = some e := he
    have hused := usedOf_eraseP hfind
    have hacc := h.account
    have hle : e.content.length ≤ usedOf cs.dir := by omega
    refine ⟨?_, ?_, ?_, ?_⟩
    · simp only
      omega
    · simp only
      exact le_trans (Nat.sub_le _ _) h.quota
    · simp only
      exact h.nodup.sublist ((List.eraseP_sublist _).map Entry.name)
    · intro e' he'
      exact h.entries e' ((List.eraseP_sublist _).subset he')

theorem dir_entry_delete_self {cs : ChunkStore} (h : StoreInv cs) (n : Name) :
    (cs.delete n).dir_entry n = none := by
  apply List.find?_eq_none.2
  intro e he
  have := delete_not_named h.nodup e he
  simpa [entryNamed] using this

theorem storeInv_putOk {cs cs' : ChunkStore} {n : Name} {v : List Nat}
    (h : StoreInv cs) (hput : cs.put n v = .ok cs') : StoreInv cs' := by
  rcases put_ok_iff.1 hput with ⟨hq, rfl⟩
  have hd := storeInv_delete h n
  have hnotn := delete_not_named h.nodup (n := n)
  refine ⟨?_, ?_, ?_, ?_⟩
  · simp only [usedOf_append, usedOf_cons, usedOf_nil]
    have := hd.account
    omega
  · simp only [delete_max]
    have := delete_usage_le cs n
    omega
  · simp only [List.map_append, List.map_cons, List.map_nil]
    rw [List.nodup_append]
    refine ⟨hd.nodup, List.nodup_singleton _, ?_⟩
    intro x hx hx1
    rcases List.mem_map.1 hx with ⟨e, he, rfl⟩
    rcases List.mem_singleton.1 hx1 with h1
    exact hnotn e he h1
  · intro e he
    rcases List.mem_append.1 he with he | he
    · exact hd.entries e he
    · rcases List.mem_singleton.1 he with rfl
      exact ⟨rfl, n, rfl⟩

theorem storeInv_putWith {cs : ChunkStore} (h : StoreInv cs) (n : Name)
    (v : List Nat) (eff : PutEff) : StoreInv (cs.putWith n v eff).2 := by
  unfold ChunkStore.putWith
  by_cases hq : cs.has_disk_space v.length
  · rw [if_pos hq]
    rcases hdel : cs.deleteWith n eff.del with ⟨ok, cs1⟩
    cases ok with
    | false =>
      dsimp only
      rw [deleteWith_false hdel]
      exact h
    | true =>
      dsimp only
      have hcs1 : cs1 = cs.delete n := deleteWith_true hdel
      subst hcs1
      by_cases hc : eff.createOk
      · rw [if_pos hc]
        by_cases hw : eff.writeOk
        · rw [if_pos hw]
          dsimp only
          have hput : cs.put n v = .ok
              { dir := (cs.delete n).dir ++ [Entry.mk (FsName.valid n) true v],
                max_disk_usage := (cs.delete n).max_disk_usage,
                current_disk_usage := (cs.delete n).current_disk_usage + v.length } := by
            unfold ChunkStore.put
            rw [if_pos hq]
          exact storeInv_putOk h hput
        · rw [if_neg hw]
          by_cases hcl : eff.cleanupOk
          · rw [if_pos hcl]
            exact storeInv_delete h n
          · rw [if_neg hcl]
            dsimp only
            have hd := storeInv_delete h n
            have hnotn := delete_not_named h.nodup (n := n)
            refine ⟨?_, ?_, ?_, ?_⟩
            · simp only [usedOf_append, usedOf_cons, usedOf_nil]
              have := hd.account
              simpa using this
            · simp only [delete_max]
              exact le_trans (delete_usage_le cs n) h.quota
            · simp only [List.map_append, List.map_cons, List.map_nil]
              rw [List.nodup_append]
              refine ⟨hd.nodup, List.nodup_singleton _, ?_⟩
              intro x hx hx1
              rcases List.mem_map.1 hx with ⟨e, he, rfl⟩
              rcases List.mem_singleton.1 hx1 with h1
              exact hnotn e he h1
            · intro e he
              rcases List.mem_append.1 he with he | he
              · exact hd.entries e he
              · rcases List.mem_singleton.1 he with rfl
                exact ⟨rfl, n, rfl⟩
      · rw [if_neg hc]
        exact storeInv_delete h n
  · rw [if_neg hq]
    exact h

theorem storeInv_deleteWith {cs : ChunkStore} (h : StoreInv cs) (n : Name)
    (eff : DeleteEff) : StoreInv (cs.deleteWith n eff).2 := by
  rcases hdel : cs.deleteWith n eff with ⟨ok, cs1⟩
  cases ok with
  | false => rw [deleteWith_false hdel]; exact h
  | true => rw [deleteWith_true hdel]; exact storeInv_delete h n

theorem storeInv_of_reachableEff {cs : ChunkStore} (h : ReachableEff cs) :
    StoreInv cs := by
  induction h with
  | new m => exact storeInv_new m
  | putStep n v eff _ ih => exact storeInv_putWith ih n v eff
  | deleteStep n eff _ ih => exact storeInv_deleteWith ih n eff

theorem storeInv_of_reachable {cs : ChunkStore} (h : Reachable cs) :
    StoreInv cs :=
  storeInv_of_reachableEff h.toEff

/-! ## Enumeration lemmas -/

theorem decode_eq_some_iff {x : FsName} {n : Name} :
    FsName.decode x = some n ↔ x = FsName.valid n := by
  cases x <;> simp [FsName.decode]

theorem chunksList_map_eq_filterMap (dir : List Entry) :
    chunksList (dir.map (fun e => .entry e true)) = dir.filterMap entryItem := by
  induction dir with
  | nil => rfl
  | cons e l ih =>
    simp only [List.map_cons, List.filterMap_cons]
    by_cases hf : e.isFile
    · cases hd : FsName.decode e.name with
      | none => simp [chunksList, entryItem, hf, hd, ih]
      | some n => simp [chunksList, entryItem, hf, hd, ih]
    · simp [chunksList, entryItem, hf, ih]

theorem enumerate_eq_filterMap (cs : ChunkStore) :
    cs.enumerate = cs.dir.filterMap entryItem :=
  chunksList_map_eq_filterMap cs.dir

theorem entryItem_chunk_iff {e : Entry} {k : Name} {rd : ChunkReader} :
    entryItem e = some (.chunk k rd) ↔
      (e.isFile = true ∧ e.name = FsName.valid k ∧ rd = ⟨e.name⟩) := by
  unfold entryItem
  by_cases hf : e.isFile
  · rw [if_pos hf]
    cases hd : FsName.decode e.name with
    | none => simp [hf, decode_eq_some_iff.symm, hd]
    | some m =>
      have hname : e.name = FsName.valid m := decode_eq_some_iff.1 hd
      rw [Option.map_some']
      constructor
      · intro hy
        injection hy with hy
        cases hy
        exact ⟨hf, hname, rfl⟩
      · rintro ⟨-, hnm, rfl⟩
        rw [hname] at hnm
        injection hnm with hnm
        subst hnm
        rfl
  · simp [hf]

theorem entryItem_ne_err (e : Entry) : entryItem e ≠ some .err := by
  unfold entryItem
  by_cases hf : e.isFile
  · rw [if_pos hf]
    cases hd : FsName.decode e.name <;> simp
  · simp [hf]

theorem bind_entryItem_itemKey (e : Entry) :
    (entryItem e).bind itemKey =
      (if e.isFile then FsName.decode e.name else none) := by
  unfold entryItem
  by_cases hf : e.isFile
  · rw [if_pos hf, if_pos hf]
    cases hd : FsName.decode e.name <;> simp [itemKey]
  · simp [hf]

theorem find?_isSome_of_mem {dir : List Entry} {e : Entry} {x : FsName}
    (he : e ∈ dir) (hx : e.name = x) :
    (dir.find? (entryNamed x)).isSome = true := by
  cases hf : dir.find? (entryNamed x) with
  | some e0 => rfl
  | none =>
    have := List.find?_eq_none.1 hf e he
    simp [entryNamed, hx] at this

/-! ## Outcome analysis of a fallible put -/

theorem putWith_spec (cs : ChunkStore) (n : Name) (v : List Nat) (eff : PutEff) :
    (cs.has_disk_space v.length = false ∧ cs.putWith n v eff = (.limitHit, cs)) ∨
    ((cs.deleteWith n eff.del).1 = false ∧
      cs.putWith n v eff = (.preDeleteErr, cs)) ∨
    (eff.createOk = false ∧ cs.putWith n v eff = (.createErr, cs.delete n)) ∨
    (eff.createOk = true ∧ eff.writeOk = false ∧
      ((eff.cleanupOk = true ∧ cs.putWith n v eff = (.writeErr, cs.delete n)) ∨
       (eff.cleanupOk = false ∧ cs.putWith n v eff = (.writeErr,
         { dir := (cs.delete n).dir ++ [Entry.mk (FsName.valid n) true []],
           max_disk_usage := (cs.delete n).max_disk_usage,
           current_disk_usage := (cs.delete n).current_disk_usage })))) ∨
    (cs.put n v = .ok (cs.putWith n v eff).2 ∧ (cs.putWith n v eff).1 = .success) := by
  unfold ChunkStore.putWith
  by_cases hq : cs.has_disk_space v.length
  · rw [if_pos hq]
    rcases hdel : cs.deleteWith n eff.del with ⟨ok, cs1⟩
    cases ok with
    | false =>
      refine Or.inr (Or.inl ⟨rfl, ?_⟩)
      dsimp only
      rw [deleteWith_false hdel]
    | true =>
      dsimp only
      have hcs1 : cs1 = cs.delete n := deleteWith_true hdel
      subst hcs1
      by_cases hc : eff.createOk
      · rw [if_pos hc]
        by_cases hw : eff.writeOk
        · rw [if_pos hw]
          refine Or.inr (Or.inr (Or.inr (Or.inr ⟨?_, rfl⟩)))
          unfold ChunkStore.put
          rw [if_pos hq]
        · rw [if_neg hw]
          refine Or.inr (Or.inr (Or.inr (Or.inl
            ⟨hc, Bool.not_eq_true _ ▸ hw, ?_⟩)))
          by_cases hcl : eff.cleanupOk
          · rw [if_pos hcl]
            exact Or.inl ⟨hcl, rfl⟩
          · rw [if_neg hcl]
            exact Or.inr ⟨Bool.not_eq_true _ ▸ hcl, rfl⟩
      · rw [if_neg hc]
        exact Or.inr (Or.inr (Or.inl ⟨Bool.not_eq_true _ ▸ hc, rfl⟩))
  · rw [if_neg hq]
    exact Or.inl ⟨Bool.not_eq_true _ ▸ hq, rfl⟩

/-! ## Agreement of the exact `usize` semantics with the unbounded one

Below `2 ^ w` the wrapped operations coincide with the idealised ones; the
divergence above `2 ^ w` is exercised by the wrap counterexamples. -/

theorem usizeAdd_eq {w a b : Nat} (h : a + b < 2 ^ w) : usizeAdd w a b = a + b :=
  Nat.mod_eq_of_lt h

theorem usizeSub_eq {w a b : Nat} (hba : b ≤ a) (ha : a < 2 ^ w) :
    usizeSub w a b = a - b := by
  unfold usizeSub
  have hb : b % 2 ^ w = b := Nat.mod_eq_of_lt (lt_of_le_of_lt hba ha)
  rw [hb]
  have h1 : a + (2 ^ w - b) = (a - b) + 2 ^ w := by
    have hw : b ≤ 2 ^ w := le_of_lt (lt_of_le_of_lt hba ha)
    omega
  rw [h1, Nat.add_mod_right, Nat.mod_eq_of_lt (by omega)]

theorem deleteW_eq_delete {w : Nat} {cs : ChunkStore} (hinv : StoreInv cs)
    (hU : cs.current_disk_usage < 2 ^ w) (n : Name) :
    cs.deleteW w n = cs.delete n := by
  unfold ChunkStore.deleteW ChunkStore.delete
  cases he : cs.dir_entry n with
  | none => rfl
  | some e =>
    dsimp only
    have hused := usedOf_eraseP (p := entryNamed (FsName.valid n)) he
    have hacc := hinv.account
    have hle : e.content.length ≤ cs.current_disk_usage := by omega
    rw [usizeSub_eq hle hU]

theorem deleteWithW_eq {w : Nat} {cs : ChunkStore} (hinv : StoreInv cs)
    (hU : cs.current_disk_usage < 2 ^ w) (n : Name) (eff : DeleteEff) :
    cs.deleteWithW w n eff = cs.deleteWith n eff := by
  unfold ChunkStore.deleteWithW ChunkStore.deleteWith
  cases eff with
  | ok => rw [deleteW_eq_delete hinv hU]
  | listErr => rfl
  | metadataErr => rfl
  | removeErr => rfl

theorem putWithW_eq {w : Nat} {cs : ChunkStore} {n : Name} {v : List Nat}
    (hinv : StoreInv cs) (h : cs.current_disk_usage + v.length < 2 ^ w)
    (eff : PutEff) :
    cs.putWithW w n v eff = cs.putWith n v eff := by
  have hU : cs.current_disk_usage < 2 ^ w := by omega
  have hcheck : has_disk_spaceW w cs.current_disk_usage cs.max_disk_usage
      v.length = cs.has_disk_space v.length := by
    unfold has_disk_spaceW ChunkStore.has_disk_space
    rw [usizeAdd_eq h]
  unfold ChunkStore.putWithW ChunkStore.putWith
  rw [hcheck, deleteWithW_eq hinv hU n eff.del]
  by_cases hq : cs.has_disk_space v.length
  · rw [if_pos hq, if_pos hq]
    rcases hdel : cs.deleteWith n eff.del with ⟨ok, cs1⟩
    cases ok with
    | false => rfl
    | true =>
      dsimp only
      have hcs1 : cs1 = cs.delete n := deleteWith_true hdel
      subst hcs1
      by_cases hc : eff.createOk
      · rw [if_pos hc, if_pos hc]
        by_cases hw : eff.writeOk
        · rw [if_pos hw, if_pos hw]
          have hadd : usizeAdd w (cs.delete n).current_disk_usage v.length =
              (cs.delete n).current_disk_usage + v.length := by
            apply usizeAdd_eq
            have := delete_usage_le cs n
            omega
          rw [hadd]
        · rw [if_neg hw, if_neg hw]
      · rw [if_neg hc, if_neg hc]
  · rw [if_neg hq, if_neg hq]

theorem putW_ok_iff {w : Nat} {cs cs' : ChunkStore} {n : Name} {v : List Nat} :
    cs.putW w n v = .ok cs' ↔
      (usizeAdd w cs.current_disk_usage v.length ≤ cs.max_disk_usage ∧
       cs' = { dir := (cs.deleteW w n).dir ++ [Entry.mk (FsName.valid n) true v],
               max_disk_usage := (cs.deleteW w n).max_disk_usage,
               current_disk_usage :=
                 usizeAdd w (cs.deleteW w n).current_disk_usage v.length }) := by
  unfold ChunkStore.putW
  by_cases h : usizeAdd w cs.current_disk_usage v.length ≤ cs.max_disk_usage
  · have hb : has_disk_spaceW w cs.current_disk_usage cs.max_disk_usage
        v.length = true := decide_eq_true h
    rw [if_pos hb]
    constructor
    · intro he
      refine ⟨h, ?_⟩
      cases he
      rfl
    · rintro ⟨-, rfl⟩
      rfl
  · have hb : has_disk_spaceW w cs.current_disk_usage cs.max_disk_usage
        v.length = false := decide_eq_false h
    rw [if_neg (by simp [hb])]
    constructor
    · intro he
      cases he
    · rintro ⟨hc, -⟩
      exact absurd hc h

theorem putW_error_iff {w : Nat} {cs : ChunkStore} {n : Name} {v : List Nat} :
    cs.putW w n v = .error .StorageLimitHit ↔
      ¬ (usizeAdd w cs.current_disk_usage v.length ≤ cs.max_disk_usage) := by
  unfold ChunkStore.putW
  by_cases h : usizeAdd w cs.current_disk_usage v.length ≤ cs.max_disk_usage
  · have hb : has_disk_spaceW w cs.current_disk_usage cs.max_disk_usage
        v.length = true := decide_eq_true h
    rw [if_pos hb]
    simp [h]
  · have hb : has_disk_spaceW w cs.current_disk_usage cs.max_disk_usage
        v.length = false := decide_eq_false h
    rw [if_neg (by simp [hb])]
    simp [h]

theorem putWith_max (cs : ChunkStore) (n : Name) (v : List Nat)
    (eff : PutEff) :
    (cs.putWith n v eff).2.max_disk_usage = cs.max_disk_usage := by
  rcases putWith_spec cs n v eff with ⟨-, heq⟩ | ⟨-, heq⟩ | ⟨-, heq⟩ |
    ⟨-, -, ⟨-, heq⟩ | ⟨-, heq⟩⟩ | ⟨hput, -⟩
  · rw [heq]
  · rw [heq]
  · rw [heq]
    exact delete_max cs n
  · rw [heq]
    exact delete_max cs n
  · rw [heq]
    exact delete_max cs n
  · rcases put_ok_iff.1 hput with ⟨-, heq2⟩
    rw [heq2]
    exact delete_max cs n

theorem deleteWith_max (cs : ChunkStore) (n : Name) (eff : DeleteEff) :
    (cs.deleteWith n eff).2.max_disk_usage = cs.max_disk_usage := by
  rcases hdel : cs.deleteWith n eff with ⟨ok, cs1⟩
  cases ok with
  | false => rw [deleteWith_false hdel]
  | true =>
    rw [deleteWith_true hdel]
    exact delete_max cs n

theorem reachableNW_to_eff {w : Nat} {cs : ChunkStore} (h : ReachableNW w cs) :
    ReachableEff cs ∧ cs.max_disk_usage < 2 ^ w := by
  induction h with
  | new m hm => exact ⟨ReachableEff.new m, hm⟩
  | putStep n v eff hnw _ ih =>
    have hinv := storeInv_of_reachableEff ih.1
    rw [putWithW_eq hinv hnw eff]
    refine ⟨ReachableEff.putStep n v eff ih.1, ?_⟩
    rw [putWith_max]
    exact ih.2
  | deleteStep n eff _ ih =>
    have hinv := storeInv_of_reachableEff ih.1
    have hU := lt_of_le_of_lt hinv.quota ih.2
    rw [deleteWithW_eq hinv hU n eff]
    refine ⟨ReachableEff.deleteStep n eff ih.1, ?_⟩
    rw [deleteWith_max]
    exact ih.2

/-! ## The claims -/

/-- C1 counterexample, under the exact `usize` semantics at word width 4
(`2 ^ 4 = 16`): from `new(4)`, the calls `put(0, 4 bytes)` then
`put(1, 12 bytes)` — projected usage `4 + 12 = 16 > 4`, but the wrapped
check computes `16 % 16 = 0 <= 4`, so the oversized put is accepted
instead of rejected — then `put(2, 2 bytes)` then `delete(1)` reach a
state whose `current_disk_usage` is 6, above `max_disk_usage = 4`, after a
successful delete: both halves of the stated claim fail on the program's
wrapping arithmetic. -/
theorem quota_wrap_counterexample :
    ReachableW 4 (ChunkStore.mk
      [Entry.mk (FsName.valid 0) true [1, 1, 1, 1],
       Entry.mk (FsName.valid 2) true [1, 1]] 4 6) ∧
    (ChunkStore.mk
      [Entry.mk (FsName.valid 0) true [1, 1, 1, 1],
       Entry.mk (FsName.valid 2) true [1, 1]] 4 6).max_disk_usage <
      (ChunkStore.mk
        [Entry.mk (FsName.valid 0) true [1, 1, 1, 1],
         Entry.mk (FsName.valid 2) true [1, 1]] 4 6).current_disk_usage ∧
    (ChunkStore.mk [Entry.mk (FsName.valid 0) true [1, 1, 1, 1]] 4 4).max_disk_usage <
      (ChunkStore.mk [Entry.mk (FsName.valid 0) true [1, 1, 1, 1]] 4 4).current_disk_usage +
        [1, 1, 1, 1, 1, 1, 1, 1, 1, 1, 1, 1].length ∧
    (ChunkStore.mk [Entry.mk (FsName.valid 0) true [1, 1, 1, 1]] 4 4).putW 4 1
        [1, 1, 1, 1, 1, 1, 1, 1, 1, 1, 1, 1] =
      .ok (ChunkStore.mk
        [Entry.mk (FsName.valid 0) true [1, 1, 1, 1],
         Entry.mk (FsName.valid 1) true [1, 1, 1, 1, 1, 1, 1, 1, 1, 1, 1, 1]] 4 0) := by
  have h0 : ReachableW 4 (ChunkStore.new 4) := ReachableW.new 4 (by decide)
  have h1 : ReachableW 4
      (ChunkStore.mk [Entry.mk (FsName.valid 0) true [1, 1, 1, 1]] 4 4) :=
    ReachableW.putOk 0 [1, 1, 1, 1] h0 rfl
  have h2 : ReachableW 4 (ChunkStore.mk
      [Entry.mk (FsName.valid 0) true [1, 1, 1, 1],
       Entry.mk (FsName.valid 1) true [1, 1, 1, 1, 1, 1, 1, 1, 1, 1, 1, 1]] 4 0) :=
    ReachableW.putOk 1 [1, 1, 1, 1, 1, 1, 1, 1, 1, 1, 1, 1] h1 rfl
  have h3 : ReachableW 4 (ChunkStore.mk
      [Entry.mk (FsName.valid 0) true [1, 1, 1, 1],
       Entry.mk (FsName.valid 1) true [1, 1, 1, 1, 1, 1, 1, 1, 1, 1, 1, 1],
       Entry.mk (FsName.valid 2) true [1, 1]] 4 2) :=
    ReachableW.putOk 2 [1, 1] h2 rfl
  exact ⟨ReachableW.del 1 h3, by decide, by decide, rfl⟩

/-- C1 amended: under the exact `usize` semantics, along every sequence of
put and delete calls (including failing ones) in which each put's projected
usage `current_disk_usage + payload length` fits in the machine word,
`current_disk_usage` never exceeds `max_disk_usage` after any call; and a
put whose projected usage exceeds `max_disk_usage` while fitting in the
machine word returns `StorageLimitHit` with the store completely
unchanged, whatever the storage medium would have done.  When a projected
usage reaches `2 ^ w` the wrapped check can pass instead
(`quota_wrap_counterexample`). -/
theorem quota_invariant_and_early_rejection_w :
    (∀ (w : Nat) (cs : ChunkStore), ReachableNW w cs →
      cs.current_disk_usage ≤ cs.max_disk_usage) ∧
    (∀ (w : Nat) (cs : ChunkStore) (n : Name) (v : List Nat) (eff : PutEff),
      cs.current_disk_usage + v.length < 2 ^ w →
      cs.max_disk_usage < cs.current_disk_usage + v.length →
      cs.putWithW w n v eff = (.limitHit, cs)) := by
  constructor
  · intro w cs h
    exact (storeInv_of_reachableEff (reachableNW_to_eff h).1).quota
  · intro w cs n v eff hfit hover
    have hb : has_disk_spaceW w cs.current_disk_usage cs.max_disk_usage
        v.length = false := by
      unfold has_disk_spaceW
      rw [usizeAdd_eq hfit]
      exact decide_eq_false (by omega)
    unfold ChunkStore.putWithW
    rw [if_neg (by simp [hb])]

/-- Witness for the amended C1 at word width 8: the fresh store respects
the quota, and an oversized but non-wrapping put is rejected unchanged. -/
theorem quota_invariant_and_early_rejection_w_witness :
    (ChunkStore.new 5).current_disk_usage ≤ (ChunkStore.new 5).max_disk_usage ∧
    (ChunkStore.new 5).putWithW 8 0 [1, 2, 3, 4, 5, 6] ⟨.ok, true, true, true⟩ =
      (.limitHit, ChunkStore.new 5) :=
  ⟨quota_invariant_and_early_rejection_w.1 8 _ (ReachableNW.new 5 (by decide)),
   quota_invariant_and_early_rejection_w.2 8 _ 0 _ _ (by decide) (by decide)⟩

/-- C2: in every state reached by successful failure-free calls,
`current_disk_usage` equals the sum of the persisted sizes of the entries
in the storage area; moreover every successful put adds exactly the number
of bytes written for the new entry to the post-pre-delete usage, and every
successful delete of a present chunk subtracts exactly that entry's
recorded size. -/
theorem accounting_invariant :
    (∀ cs : ChunkStore, Reachable cs →
      cs.current_disk_usage = usedOf cs.dir) ∧
    (∀ (cs cs' : ChunkStore) (n : Name) (v : List Nat),
      cs.put n v = .ok cs' →
      cs'.current_disk_usage = (cs.delete n).current_disk_usage + v.length) ∧
    (∀ (cs : ChunkStore) (n : Name) (e : Entry), Reachable cs →
      cs.dir_entry n = some e →
      (cs.delete n).current_disk_usage + e.content.length =
        cs.current_disk_usage) := by
  refine ⟨?_, ?_, ?_⟩
  · intro cs h
    exact (storeInv_of_reachable h).account
  · intro cs cs' n v h
    rcases put_ok_iff.1 h with ⟨-, rfl⟩
    rfl
  · intro cs n e hr he
    have hinv := storeInv_of_reachable hr
    have hused := usedOf_eraseP (p := entryNamed (FsName.valid n)) he
    have hacc := hinv.account
    rw [delete_of_some he]
    simp only
    omega

/-- Witness for C2 at a concrete store with one stored chunk. -/
theorem accounting_invariant_witness :
    ((ChunkStore.mk [Entry.mk (FsName.valid 0) true [7, 7, 7]] 10 3).current_disk_usage =
      usedOf (ChunkStore.mk [Entry.mk (FsName.valid 0) true [7, 7, 7]] 10 3).dir) ∧
    ((ChunkStore.new 10).put 0 [7, 7, 7] =
        .ok (ChunkStore.mk [Entry.mk (FsName.valid 0) true [7, 7, 7]] 10 3) →
      (ChunkStore.mk [Entry.mk (FsName.valid 0) true [7, 7, 7]] 10 3).current_disk_usage =
        ((ChunkStore.new 10).delete 0).current_disk_usage + [7, 7, 7].length) ∧
    (((ChunkStore.mk [Entry.mk (FsName.valid 0) true [7, 7, 7]] 10 3).delete 0).current_disk_usage +
        (Entry.mk (FsName.valid 0) true [7, 7, 7]).content.length =
      (ChunkStore.mk [Entry.mk (FsName.valid 0) true [7, 7, 7]] 10 3).current_disk_usage) :=
  ⟨accounting_invariant.1 _
      (Reachable.putOk 0 [7, 7, 7] (Reachable.new 10) rfl),
   accounting_invariant.2.1 _ _ 0 [7, 7, 7],
   accounting_invariant.2.2 _ 0 _
      (Reachable.putOk 0 [7, 7, 7] (Reachable.new 10) rfl) rfl⟩

theorem dir_entry_put_self {cs cs' : ChunkStore} {n : Name} {v : List Nat}
    (hinv : StoreInv cs) (h : cs.put n v = .ok cs') :
    cs'.dir_entry n = some (Entry.mk (FsName.valid n) true v) := by
  rcases put_ok_iff.1 h with ⟨-, rfl⟩
  show ((cs.delete n).dir ++ [Entry.mk (FsName.valid n) true v]).find?
      (entryNamed (FsName.valid n)) = _
  rw [List.find?_append,
    show (cs.delete n).dir.find? (entryNamed (FsName.valid n)) = none from
      dir_entry_delete_self hinv n,
    Option.none_or]
  simp [List.find?, entryNamed]

/-- C3: for every identifier and payload, in any state reached by
successful failure-free calls, a successful `put` followed by `get` of the
same identifier returns exactly the payload that was put (the whole payload
was written to the new entry before success was declared). -/
theorem put_get_roundtrip :
    ∀ (cs cs' : ChunkStore) (n : Name) (v : List Nat), Reachable cs →
      cs.put n v = .ok cs' → cs'.get n = some v := by
  intro cs cs' n v hr hput
  unfold ChunkStore.get
  rw [dir_entry_put_self (storeInv_of_reachable hr) hput]
  rfl

/-- Witness for C3: put then get on a fresh store returns the payload. -/
theorem put_get_roundtrip_witness :
    (ChunkStore.mk [Entry.mk (FsName.valid 4) true [9, 8, 7]] 10 3).get 4 =
      some [9, 8, 7] :=
  put_get_roundtrip (ChunkStore.new 10) _ 4 [9, 8, 7] (Reachable.new 10) rfl

/-- C4 counterexample, under the exact `usize` semantics at word width 4:
at the reachable store with `used = 1`, `max = 1`, the wrapped quota check
accepts a payload of length 15 — `(1 + 15) % 16 = 0 <= 1` — so the put
succeeds and the check returns true although `1 + 15 > 1`: neither the
stated put iff nor the stated `has_space` equivalence holds on the
program's wrapping arithmetic. -/
theorem admission_wrap_counterexample :
    ReachableW 4 (ChunkStore.mk [Entry.mk (FsName.valid 0) true [9]] 1 1) ∧
    has_disk_spaceW 4 1 1 15 = true ∧
    (1 : Nat) < 1 + 15 ∧
    (ChunkStore.mk [Entry.mk (FsName.valid 0) true [9]] 1 1).putW 4 1
        (List.replicate 15 2) =
      .ok (ChunkStore.mk
        [Entry.mk (FsName.valid 0) true [9],
         Entry.mk (FsName.valid 1) true (List.replicate 15 2)] 1 0) :=
  ⟨ReachableW.putOk 0 [9] (ReachableW.new 1 (by decide)) rfl,
   by decide, by decide, rfl⟩

/-- C4 amended: under the exact `usize` semantics, a put of payload length
`L` succeeds iff the wrapped sum `(used + L) % 2 ^ w` is at most `max`,
which whenever `used + L` fits in the machine word is exactly
`used + L <= max`; likewise the quota check returns true exactly when the
wrapped sum is at most `max`, which for `used + n < 2 ^ w` is exactly
`used + n <= max`; a payload of length exactly `max - used` succeeds (for
a `usize` capacity, `max < 2 ^ w`), and one of length `max - used + 1`
fails with `StorageLimitHit` provided `max + 1` also fits in the machine
word.  For wrapping lengths the check can accept an oversized put
(`admission_wrap_counterexample`). -/
theorem admission_boundary_w :
    (∀ (w : Nat) (cs : ChunkStore) (n : Name) (v : List Nat),
      (∃ cs', cs.putW w n v = .ok cs') ↔
        usizeAdd w cs.current_disk_usage v.length ≤ cs.max_disk_usage) ∧
    (∀ (w : Nat) (cs : ChunkStore) (n : Name) (v : List Nat),
      cs.current_disk_usage + v.length < 2 ^ w →
      ((∃ cs', cs.putW w n v = .ok cs') ↔
        cs.current_disk_usage + v.length ≤ cs.max_disk_usage)) ∧
    (∀ (w : Nat) (cs : ChunkStore) (n : Nat),
      cs.current_disk_usage + n < 2 ^ w →
      (has_disk_spaceW w cs.current_disk_usage cs.max_disk_usage n = true ↔
        cs.current_disk_usage + n ≤ cs.max_disk_usage)) ∧
    (∀ (w : Nat) (cs : ChunkStore) (n : Name),
      cs.current_disk_usage ≤ cs.max_disk_usage →
      cs.max_disk_usage < 2 ^ w →
      (∃ cs', cs.putW w n
        (List.replicate (cs.max_disk_usage - cs.current_disk_usage) 0) =
          .ok cs') ∧
      (cs.max_disk_usage + 1 < 2 ^ w →
        cs.putW w n
          (List.replicate (cs.max_disk_usage - cs.current_disk_usage + 1) 0) =
            .error .StorageLimitHit)) := by
  refine ⟨?_, ?_, ?_, ?_⟩
  · intro w cs n v
    constructor
    · rintro ⟨cs', h⟩
      exact (putW_ok_iff.1 h).1
    · intro h
      exact ⟨_, putW_ok_iff.2 ⟨h, rfl⟩⟩
  · intro w cs n v hfit
    rw [show (∃ cs', cs.putW w n v = .ok cs') ↔
        usizeAdd w cs.current_disk_usage v.length ≤ cs.max_disk_usage from
      ⟨fun ⟨cs', h⟩ => (putW_ok_iff.1 h).1,
       fun h => ⟨_, putW_ok_iff.2 ⟨h, rfl⟩⟩⟩,
      usizeAdd_eq hfit]
  · intro w cs n hfit
    unfold has_disk_spaceW
    rw [usizeAdd_eq hfit]
    simp
  · intro w cs n hU hM
    constructor
    · refine ⟨_, putW_ok_iff.2 ⟨?_, rfl⟩⟩
      rw [List.length_replicate]
      have he : cs.current_disk_usage +
          (cs.max_disk_usage - cs.current_disk_usage) = cs.max_disk_usage := by
        omega
      unfold usizeAdd
      rw [he, Nat.mod_eq_of_lt hM]
    · intro hM1
      apply putW_error_iff.2
      rw [List.length_replicate]
      unfold usizeAdd
      have he : cs.current_disk_usage +
          (cs.max_disk_usage - cs.current_disk_usage + 1) =
            cs.max_disk_usage + 1 := by
        omega
      rw [he, Nat.mod_eq_of_lt hM1]
      omega

/-- Witness for the amended C4 at word width 8 and a store with
`max = 10`, `used = 3`. -/
theorem admission_boundary_w_witness :
    ((∃ cs', (ChunkStore.mk [Entry.mk (FsName.valid 0) true [7, 7, 7]] 10 3).putW
        8 1 [1, 2] = .ok cs') ↔
      usizeAdd 8 3 [1, 2].length ≤ 10) ∧
    (3 + 4 < 2 ^ 8 ∧
      (has_disk_spaceW 8 3 10 4 = true ↔ 3 + 4 ≤ 10)) ∧
    ((∃ cs', (ChunkStore.mk [Entry.mk (FsName.valid 0) true [7, 7, 7]] 10 3).putW
        8 1 (List.replicate (10 - 3) 0) = .ok cs') ∧
      (ChunkStore.mk [Entry.mk (FsName.valid 0) true [7, 7, 7]] 10 3).putW
        8 1 (List.replicate (10 - 3 + 1) 0) = .error .StorageLimitHit) :=
  ⟨admission_boundary_w.1 8 _ 1 [1, 2],
   ⟨by decide, admission_boundary_w.2.2.1 8 (ChunkStore.mk
      [Entry.mk (FsName.valid 0) true [7, 7, 7]] 10 3) 4 (by decide)⟩,
   ⟨(admission_boundary_w.2.2.2 8 _ 1 (by decide) (by decide)).1,
    (admission_boundary_w.2.2.2 8 _ 1 (by decide) (by decide)).2 (by decide)⟩⟩

/-- C5: overwriting a chunk via two successful puts under the same
identifier leaves `get` returning the second payload, accounts only the
second payload's size for that identifier, and proceeds as
delete-then-create: the resulting directory is the directory with the old
chunk removed (no entry under that identifier remains) with the new entry
created after it. -/
theorem overwrite_semantics :
    ∀ (cs cs1 cs2 : ChunkStore) (n : Name) (v1 v2 : List Nat), Reachable cs →
      cs.put n v1 = .ok cs1 → cs1.put n v2 = .ok cs2 →
      cs2.get n = some v2 ∧
      cs2.current_disk_usage + v1.length =
        cs1.current_disk_usage + v2.length ∧
      cs2.dir = (cs1.delete n).dir ++ [Entry.mk (FsName.valid n) true v2] ∧
      (∀ e ∈ (cs1.delete n).dir, e.name ≠ FsName.valid n) := by
  intro cs cs1 cs2 n v1 v2 hr hp1 hp2
  have hr1 : Reachable cs1 := Reachable.putOk n v1 hr hp1
  have hinv := storeInv_of_reachable hr
  have hinv1 := storeInv_of_reachable hr1
  have hent : cs1.dir_entry n = some (Entry.mk (FsName.valid n) true v1) :=
    dir_entry_put_self hinv hp1
  have husage1 : cs1.current_disk_usage =
      (cs.delete n).current_disk_usage + v1.length := by
    rcases put_ok_iff.1 hp1 with ⟨-, rfl⟩
    rfl
  refine ⟨put_get_roundtrip cs1 cs2 n v2 hr1 hp2, ?_, ?_, ?_⟩
  · have husage2 : cs2.current_disk_usage =
        (cs1.delete n).current_disk_usage + v2.length := by
      rcases put_ok_iff.1 hp2 with ⟨-, rfl⟩
      rfl
    have hdel1 : (cs1.delete n).current_disk_usage =
        cs1.current_disk_usage - v1.length := by
      rw [delete_of_some hent]
    omega
  · rcases put_ok_iff.1 hp2 with ⟨-, rfl⟩
    rfl
  · exact delete_not_named hinv1.nodup

/-- Witness for C5: two puts under identifier 3 on a fresh store. -/
theorem overwrite_semantics_witness :
    (ChunkStore.mk [Entry.mk (FsName.valid 3) true [5, 5]] 10 2).get 3 =
        some [5, 5] ∧
    (ChunkStore.mk [Entry.mk (FsName.valid 3) true [5, 5]] 10 2).current_disk_usage +
        [1, 2, 3].length =
      (ChunkStore.mk [Entry.mk (FsName.valid 3) true [1, 2, 3]] 10 3).current_disk_usage +
        [5, 5].length ∧
    (ChunkStore.mk [Entry.mk (FsName.valid 3) true [5, 5]] 10 2).dir =
      ((ChunkStore.mk [Entry.mk (FsName.valid 3) true [1, 2, 3]] 10 3).delete 3).dir ++
        [Entry.mk (FsName.valid 3) true [5, 5]] ∧
    (∀ e ∈ ((ChunkStore.mk [Entry.mk (FsName.valid 3) true [1, 2, 3]] 10 3).delete 3).dir,
      e.name ≠ FsName.valid 3) :=
  overwrite_semantics (ChunkStore.new 10) _ _ 3 [1, 2, 3] [5, 5]
    (Reachable.new 10) rfl rfl

/-- C6: delete is idempotent: deleting an absent identifier succeeds and
changes nothing at all; deleting a present chunk reduces
`current_disk_usage` by exactly that entry's recorded size and makes
`has_chunk` false afterwards. -/
theorem delete_idempotence :
    (∀ (cs : ChunkStore) (n : Name),
      cs.dir_entry n = none → cs.delete n = cs) ∧
    (∀ (cs : ChunkStore) (n : Name) (e : Entry), Reachable cs →
      cs.dir_entry n = some e →
      (cs.delete n).current_disk_usage + e.content.length =
          cs.current_disk_usage ∧
        (cs.delete n).has_chunk n = false) := by
  constructor
  · intro cs n h
    exact delete_of_none h
  · intro cs n e hr he
    have hinv := storeInv_of_reachable hr
    constructor
    · have hused := usedOf_eraseP (p := entryNamed (FsName.valid n)) he
      have hacc := hinv.account
      rw [delete_of_some he]
      simp only
      omega
    · unfold ChunkStore.has_chunk
      rw [dir_entry_delete_self hinv n]
      rfl

/-- Witness for C6: deleting an absent then a present identifier. -/
theorem delete_idempotence_witness :
    ((ChunkStore.mk [Entry.mk (FsName.valid 0) true [7, 7, 7]] 10 3).delete 1 =
      ChunkStore.mk [Entry.mk (FsName.valid 0) true [7, 7, 7]] 10 3) ∧
    (((ChunkStore.mk [Entry.mk (FsName.valid 0) true [7, 7, 7]] 10 3).delete 0).current_disk_usage +
        (Entry.mk (FsName.valid 0) true [7, 7, 7]).content.length =
      (ChunkStore.mk [Entry.mk (FsName.valid 0) true [7, 7, 7]] 10 3).current_disk_usage) ∧
    ((ChunkStore.mk [Entry.mk (FsName.valid 0) true [7, 7, 7]] 10 3).delete 0).has_chunk 0 =
      false :=
  ⟨delete_idempotence.1 _ 1 rfl,
   (delete_idempotence.2 _ 0 _
      (Reachable.putOk 0 [7, 7, 7] (Reachable.new 10) rfl) rfl).1,
   (delete_idempotence.2 _ 0 _
      (Reachable.putOk 0 [7, 7, 7] (Reachable.new 10) rfl) rfl).2⟩

/-- C7 counterexample: from the reachable store holding one chunk of
recorded size 3 (usage 3), a put under the same identifier whose create
step fails returns an error, yet `current_disk_usage` has changed from 3
to 0: the pre-delete had already removed the old chunk and subtracted its
size before the failure. -/
theorem put_error_usage_counterexample :
    Reachable (ChunkStore.mk [Entry.mk (FsName.valid 0) true [7, 7, 7]] 10 3) ∧
    ((ChunkStore.mk [Entry.mk (FsName.valid 0) true [7, 7, 7]] 10 3).putWith 0 [1]
        ⟨.ok, false, true, true⟩).1 = .createErr ∧
    ((ChunkStore.mk [Entry.mk (FsName.valid 0) true [7, 7, 7]] 10 3).putWith 0 [1]
        ⟨.ok, false, true, true⟩).2.current_disk_usage = 0 ∧
    (ChunkStore.mk [Entry.mk (FsName.valid 0) true [7, 7, 7]] 10 3).current_disk_usage
      = 3 :=
  ⟨Reachable.putOk 0 [7, 7, 7] (Reachable.new 10) rfl, by decide, by decide, rfl⟩

/-- C7 amended: a failing `delete` leaves the whole store unchanged; a put
rejected by the quota check or failing in its pre-delete leaves the store
unchanged; a put failing at create, write or sync leaves
`current_disk_usage` equal to its value right after the pre-delete —
reduced by exactly the overwritten chunk's recorded size when the
identifier was present, and equal to the pre-call value otherwise — and on
a write/sync failure removal of the partial entry is attempted, the
surfaced error being the original write failure whether or not that
removal succeeds. -/
theorem error_paths_accounting :
    (∀ (cs cs' : ChunkStore) (n : Name) (eff : DeleteEff),
      cs.deleteWith n eff = (false, cs') → cs' = cs) ∧
    (∀ (cs : ChunkStore) (n : Name) (v : List Nat) (eff : PutEff),
      (cs.putWith n v eff).1 = .limitHit ∨
        (cs.putWith n v eff).1 = .preDeleteErr →
      (cs.putWith n v eff).2 = cs) ∧
    (∀ (cs : ChunkStore) (n : Name) (v : List Nat) (eff : PutEff),
      (cs.putWith n v eff).1 = .createErr ∨
        (cs.putWith n v eff).1 = .writeErr →
      (cs.putWith n v eff).2.current_disk_usage =
        (cs.delete n).current_disk_usage) ∧
    (∀ (cs : ChunkStore) (n : Name) (v : List Nat) (c : Bool),
      cs.has_disk_space v.length = true →
      (cs.putWith n v ⟨.ok, true, false, c⟩).1 = .writeErr ∧
      (c = true →
        (cs.putWith n v ⟨.ok, true, false, c⟩).2 = cs.delete n)) := by
  refine ⟨?_, ?_, ?_, ?_⟩
  · intro cs cs' n eff h
    exact deleteWith_false h
  · intro cs n v eff h
    rcases putWith_spec cs n v eff with ⟨-, heq⟩ | ⟨-, heq⟩ | ⟨-, heq⟩ |
      ⟨-, -, ⟨-, heq⟩ | ⟨-, heq⟩⟩ | ⟨-, hfst⟩
    · rw [heq]
    · rw [heq]
    · rw [heq] at h
      rcases h with h | h <;> cases h
    · rw [heq] at h
      rcases h with h | h <;> cases h
    · rw [heq] at h
      rcases h with h | h <;> cases h
    · rcases h with h | h <;> rw [hfst] at h <;> cases h
  · intro cs n v eff h
    rcases putWith_spec cs n v eff with ⟨-, heq⟩ | ⟨-, heq⟩ | ⟨-, heq⟩ |
      ⟨-, -, ⟨-, heq⟩ | ⟨-, heq⟩⟩ | ⟨-, hfst⟩
    · rw [heq] at h
      rcases h with h | h <;> cases h
    · rw [heq] at h
      rcases h with h | h <;> cases h
    · rw [heq]
    · rw [heq]
    · rw [heq]
    · rcases h with h | h <;> rw [hfst] at h <;> cases h
  · intro cs n v c hq
    unfold ChunkStore.putWith ChunkStore.deleteWith
    rw [if_pos hq]
    dsimp only
    cases c with
    | false => exact ⟨rfl, by intro h; cases h⟩
    | true => exact ⟨rfl, fun _ => rfl⟩

/-- Witness for the amended C7: the overwrite-then-create-failure case and
the write-failure case at concrete stores. -/
theorem error_paths_accounting_witness :
    ((ChunkStore.mk [Entry.mk (FsName.valid 0) true [7, 7, 7]] 10 3).putWith 0 [1]
        ⟨.ok, false, true, true⟩).2.current_disk_usage =
      ((ChunkStore.mk [Entry.mk (FsName.valid 0) true [7, 7, 7]] 10 3).delete 0).current_disk_usage ∧
    ((ChunkStore.new 5).putWith 0 [1] ⟨.ok, true, false, false⟩).1 = .writeErr ∧
    (true = true →
      ((ChunkStore.new 5).putWith 0 [1] ⟨.ok, true, false, true⟩).2 =
        (ChunkStore.new 5).delete 0) :=
  ⟨error_paths_accounting.2.2.1 _ 0 [1] _ (Or.inl (by decide)),
   (error_paths_accounting.2.2.2 _ 0 [1] false (by decide)).1,
   (error_paths_accounting.2.2.2 _ 0 [1] true (by decide)).2⟩

/-- C9 counterexample: stepping the enumeration over a raw stream whose
first entry has a failing `file_type()` call and whose second entry is a
valid chunk file yields an error item followed by a further chunk item:
the produced sequence continues past the error. -/
theorem enumeration_error_counterexample :
    chunksList
        [.entry (Entry.mk (FsName.invalidUtf8 0) true [1]) false,
         .entry (Entry.mk (FsName.valid 5) true [9]) true] =
      [ChunkItem.err, ChunkItem.chunk 5 ⟨FsName.valid 5⟩] := by decide

/-- C9 amended: an I/O failure while stepping the enumeration yields an
error item at that position, but the iterator is not fused: it then
continues with the remaining raw entries, and further items — chunk items
or further error items — can follow an error item. -/
theorem enumeration_error_then_continue :
    (∀ rest : List RawItem,
      chunksList (.err :: rest) = .err :: chunksList rest) ∧
    (∀ (e : Entry) (rest : List RawItem),
      chunksList (.entry e false :: rest) = .err :: chunksList rest) := by
  constructor
  · intro rest
    rfl
  · intro e rest
    rfl

/-- C10: `has_disk_space` computes `used + n` in fixed-width machine
arithmetic: whenever `used + n` fits in the machine word the fixed-width
check agrees with the unbounded-integer check of the idealised model, but
for large `n` the addition wraps modulo `2 ^ w`, so the fixed-width check —
which is exactly put's quota check — can return true although
`used + n > max` over the integers. -/
theorem has_disk_space_machine_width :
    (∀ (w used maxd n : Nat) (dir : List Entry), used + n < 2 ^ w →
      has_disk_spaceW w used maxd n =
        ChunkStore.has_disk_space (ChunkStore.mk dir maxd used) n) ∧
    (∃ w used maxd n : Nat, used < 2 ^ w ∧ maxd < 2 ^ w ∧
      has_disk_spaceW w used maxd n = true ∧
      ChunkStore.has_disk_space (ChunkStore.mk [] maxd used) n = false ∧
      maxd < used + n) := by
  constructor
  · intro w used maxd n dir h
    unfold has_disk_spaceW ChunkStore.has_disk_space usizeAdd
    rw [Nat.mod_eq_of_lt h]
  · exact ⟨64, 1, 0, 2 ^ 64 - 1, by norm_num, by norm_num, by decide,
      by decide, by norm_num⟩

/-- Witness for C10's agreement half at small concrete values. -/
theorem has_disk_space_machine_width_witness :
    2 + 3 < 2 ^ 4 ∧
    has_disk_spaceW 4 2 10 3 =
      ChunkStore.has_disk_space (ChunkStore.mk [] 10 2) 3 :=
  ⟨by decide, has_disk_space_machine_width.1 4 2 10 3 [] (by decide)⟩

/-- C8: in any state reached by successful failure-free calls, a
failure-free enumeration yields exactly the set of currently-present
identifiers — an identifier is yielded iff `has_chunk` holds, each at most
once, with no error items — and each yielded `ChunkReader` holds the
chunk's location, so reading it returns exactly that chunk's current
payload (what `get` returns); moreover, over any raw stream, entries that
are not regular files and entries whose name fails to decode are skipped
silently. -/
theorem enumeration_completeness :
    (∀ cs : ChunkStore, Reachable cs →
      (∀ k : Name,
        (∃ rd, ChunkItem.chunk k rd ∈ cs.enumerate) ↔
          cs.has_chunk k = true) ∧
      (∀ (k : Name) (rd : ChunkReader), ChunkItem.chunk k rd ∈ cs.enumerate →
        rd.read cs.dir = cs.get k ∧ (cs.get k).isSome = true) ∧
      (cs.enumerate.filterMap itemKey).Nodup ∧
      ChunkItem.err ∉ cs.enumerate) ∧
    (∀ (e : Entry) (rest : List RawItem), e.isFile = false →
      chunksList (.entry e true :: rest) = chunksList rest) ∧
    (∀ (e : Entry) (rest : List RawItem), FsName.decode e.name = none →
      chunksList (.entry e true :: rest) = chunksList rest) := by
  refine ⟨?_, ?_, ?_⟩
  · intro cs hr
    have hinv := storeInv_of_reachable hr
    refine ⟨?_, ?_, ?_, ?_⟩
    · intro k
      constructor
      · rintro ⟨rd, hmem⟩
        rw [enumerate_eq_filterMap] at hmem
        rcases List.mem_filterMap.1 hmem with ⟨e, he, hee⟩
        rcases entryItem_chunk_iff.1 hee with ⟨-, hname, -⟩
        exact find?_isSome_of_mem he hname
      · intro hk
        cases hf : cs.dir.find? (entryNamed (FsName.valid k)) with
        | none =>
          unfold ChunkStore.has_chunk ChunkStore.dir_entry at hk
          rw [hf] at hk
          cases hk
        | some e =>
          have hmeme := List.mem_of_find?_eq_some hf
          have hpe : entryNamed (FsName.valid k) e = true := List.find?_some hf
          have hname : e.name = FsName.valid k := by
            simpa [entryNamed] using hpe
          have hfile := (hinv.entries e hmeme).1
          refine ⟨⟨e.name⟩, ?_⟩
          rw [enumerate_eq_filterMap]
          exact List.mem_filterMap.2
            ⟨e, hmeme, entryItem_chunk_iff.2 ⟨hfile, hname, rfl⟩⟩
    · intro k rd hmem
      rw [enumerate_eq_filterMap] at hmem
      rcases List.mem_filterMap.1 hmem with ⟨e, he, hee⟩
      rcases entryItem_chunk_iff.1 hee with ⟨-, hname, rfl⟩
      constructor
      · show (cs.dir.find? (entryNamed e.name)).map Entry.content = cs.get k
        rw [hname]
        rfl
      · have hs : (cs.dir.find? (entryNamed (FsName.valid k))).isSome = true :=
          find?_isSome_of_mem he hname
        unfold ChunkStore.get ChunkStore.dir_entry
        cases hf : cs.dir.find? (entryNamed (FsName.valid k)) with
        | none =>
          rw [hf] at hs
          cases hs
        | some e0 => rfl
    · rw [enumerate_eq_filterMap, List.filterMap_filterMap]
      have h1 : ∀ e ∈ cs.dir,
          (entryItem e).bind itemKey = FsName.decode e.name := by
        intro e he
        rw [bind_entryItem_itemKey, if_pos ((hinv.entries e he).1)]
      rw [List.filterMap_congr h1]
      have h2 : cs.dir.filterMap (fun e => FsName.decode e.name) =
          (cs.dir.map Entry.name).filterMap FsName.decode := by
        rw [List.filterMap_map]
        rfl
      rw [h2]
      refine List.Nodup.filterMap ?_ hinv.nodup
      intro a a' b hb hb'
      rw [Option.mem_def, decode_eq_some_iff] at hb hb'
      rw [hb, hb']
    · rw [enumerate_eq_filterMap]
      intro hmem
      rcases List.mem_filterMap.1 hmem with ⟨e, -, hee⟩
      exact entryItem_ne_err e hee
  · intro e rest hf
    simp [chunksList, hf]
  · intro e rest hd
    by_cases hf : e.isFile
    · simp [chunksList, hf, hd]
    · simp [chunksList, hf]

/-- Witness for C8 at a concrete one-chunk store. -/
theorem enumeration_completeness_witness :
    ((∃ rd, ChunkItem.chunk 2 rd ∈
        (ChunkStore.mk [Entry.mk (FsName.valid 2) true [4, 2]] 9 2).enumerate) ↔
      (ChunkStore.mk [Entry.mk (FsName.valid 2) true [4, 2]] 9 2).has_chunk 2 =
        true) ∧
    ((ChunkStore.mk [Entry.mk (FsName.valid 2) true [4, 2]] 9 2).enumerate.filterMap
        itemKey).Nodup ∧
    ChunkItem.err ∉
      (ChunkStore.mk [Entry.mk (FsName.valid 2) true [4, 2]] 9 2).enumerate :=
  have hr : Reachable (ChunkStore.mk [Entry.mk (FsName.valid 2) true [4, 2]] 9 2) :=
    Reachable.putOk 2 [4, 2] (Reachable.new 9) rfl
  ⟨(enumeration_completeness.1 _ hr).1 2,
   (enumeration_completeness.1 _ hr).2.2.1,
   (enumeration_completeness.1 _ hr).2.2.2⟩
